import Mathlib

/-
Shallow embedding of simpleini (src/include/simpleini.h), a header-only INI
file reader.  C++ `std::string` is modelled as `List Char`; a text file is a
list of lines (`List Str`).  Exceptions are modelled with `Except CppError`:
`INIException` and `std::out_of_range` are the two C++ dynamic exception
types that the library can raise.
-/

set_option maxRecDepth 10000

deriving instance DecidableEq for Except

abbrev Str := List Char

def str (s : String) : Str := s.data

/-- The C++ dynamic type of a raised exception, together with its message:
`simpleini::INIException` (a subclass of `std::runtime_error`) or
`std::out_of_range` (raised by `std::string::substr` / map lookups). -/
inductive CppError where
  | iniException (msg : Str)
  | outOfRange (msg : Str)
deriving DecidableEq, Repr

/-- Just the dynamic exception type, which is what a C++ `catch` clause can
discriminate on. -/
inductive CppErrorKind where
  | iniException
  | outOfRange
deriving DecidableEq, Repr

def CppError.kind : CppError → CppErrorKind
  | .iniException _ => .iniException
  | .outOfRange _ => .outOfRange

/-- The exception type with which a computation ended, `none` if it
returned normally. -/
def exceptKind {α : Type} : Except CppError α → Option CppErrorKind
  | .error e => some e.kind
  | .ok _ => none

def isOkE {α : Type} : Except CppError α → Bool
  | .ok _ => true
  | .error _ => false

/-- Message of the `std::out_of_range` thrown by `std::string::substr` when
`pos > size()` (the exact text is implementation-defined). -/
def substrMsg : Str := str "basic_string::substr"

/-- `string_is_valid` (simpleini.h:44-52): a raw line is kept iff it is
non-empty, does not start with ';' or '#', and
`find_first_not_of(' ') != npos`, i.e. it has at least one non-space char. -/
def string_is_valid (s : Str) : Bool :=
  !(s.isEmpty || s.head? == some ';' || s.head? == some '#' || s.all (· == ' '))

/-- Index of the first occurrence of `c` (C++ `std::string::find`),
`none` for `npos`. -/
def findChar (c : Char) : Str → Option Nat
  | [] => none
  | x :: rest => if x = c then some 0 else (findChar c rest).map (· + 1)

/-- `parse_section_value` (simpleini.h:54-60): `substr(1, find(']') - 1)`,
the characters strictly between position 1 and the first ']'.  When there is
no ']', `find` is `npos` and `substr(1, npos - 1)` keeps the whole tail. -/
def parse_section_value (s : Str) : Str :=
  match findChar ']' s with
  | some e => (s.drop 1).take (e - 1)
  | none => s.drop 1

/-- `strip_trailing` (simpleini.h:63-68): `substr(0, find_last_not_of(' ') + 1)`
keeps everything up to and including the last non-space character; when the
string is empty or all spaces, `npos + 1` wraps to `0` and the result is
the empty string.  Tabs are not stripped. -/
def strip_trailing (s : Str) : Str :=
  (s.reverse.dropWhile (· == ' ')).reverse

/-- `strip_leading` (simpleini.h:71-76): `substr(find_first_not_of(' '), length())`
drops the leading spaces; when the string is empty or all spaces,
`find_first_not_of` is `npos` and `substr(npos, ...)` throws
`std::out_of_range`.  Tabs are not stripped. -/
def strip_leading (s : Str) : Except CppError Str :=
  if s.all (· == ' ') then .error (.outOfRange substrMsg)
  else .ok (s.dropWhile (· == ' '))

/-- `strip` (simpleini.h:78-82). -/
def strip (s : Str) : Except CppError Str :=
  strip_leading (strip_trailing s)

/-- `parse_key_value` (simpleini.h:84-92): split at the first '=',
`key = substr(0, equalpos)`, `value = substr(equalpos + 1, length())`, then
strip both (key first, per left-to-right evaluation of the braced list).
When there is no '=', `equalpos` is `npos`: `substr(0, npos)` is the whole
string and `substr(npos + 1 = 0, length())` is also the whole string. -/
def parse_key_value (s : Str) : Except CppError (Str × Str) :=
  let kv : Str × Str :=
    match findChar '=' s with
    | some equalpos => (s.take equalpos, s.drop (equalpos + 1))
    | none => (s, s)
  match strip kv.1 with
  | .error e => .error e
  | .ok key =>
    match strip kv.2 with
    | .error e => .error e
    | .ok value => .ok (key, value)

/-- Lexicographic order on `std::string` (the `std::map` key order). -/
def strLt : Str → Str → Bool
  | [], [] => false
  | [], _ :: _ => true
  | _ :: _, [] => false
  | a :: as, b :: bs => if a < b then true else if b < a then false else strLt as bs

/-- `std::map` lookup. -/
def mapFind {β : Type} (k : Str) : List (Str × β) → Option β
  | [] => none
  | (k', v') :: rest => if k = k' then some v' else mapFind k rest

/-- `std::map::insert`: insert at the sorted position, but KEEP the existing
mapped value when the key is already present (insert does not overwrite). -/
def mapInsert {β : Type} (k : Str) (v : β) : List (Str × β) → List (Str × β)
  | [] => [(k, v)]
  | (k', v') :: rest =>
    if strLt k k' then (k, v) :: (k', v') :: rest
    else if strLt k' k then (k', v') :: mapInsert k v rest
    else (k', v') :: rest

/-- `INISection` (simpleini.h:94-152): a name and a key-value map. -/
structure INISection where
  m_name : Str
  m_contents : List (Str × Str)
deriving DecidableEq, Repr

/-- `INISection::get` (simpleini.h:120-127): value of `key`, or
`std::out_of_range` when absent. -/
def INISection.get (sec : INISection) (key : Str) : Except CppError Str :=
  match mapFind key sec.m_contents with
  | none => .error (.outOfRange (str "No key '" ++ key ++ str "' in section '" ++
      sec.m_name ++ str "'"))
  | some v => .ok v

/-- Whitespace in the default C locale, as used by `istream` extraction. -/
def isCppSpace (c : Char) : Bool :=
  c == ' ' || c == '\t' || c == '\n' || c == '\x0b' || c == '\x0c' || c == '\r'

def digitsToNat (l : Str) : Nat :=
  l.foldl (fun acc c => 10 * acc + (c.toNat - '0'.toNat)) 0

/-- Bounds of `int` (32 bits on the reference platform). -/
def int_min : Int := -2147483648

def int_max : Int := 2147483647

/-- `std::stringstream >> int`: skip leading whitespace, an optional sign,
then the longest run of decimal digits (the whole field is consumed either
way); extraction fails — `failbit` is set and `get_as` throws — when the
run is empty, or (C++11 `num_get`) when the field's value does not fit in
`int`, in which case the stored value is clamped but `ss.fail()` is true.
On success the result is the parsed value and the unconsumed remainder. -/
def extract_int (s : Str) : Option (Int × Str) :=
  let s1 := s.dropWhile isCppSpace
  let s2 := if s1.head? == some '-' || s1.head? == some '+' then s1.drop 1 else s1
  let ds := s2.takeWhile Char.isDigit
  let n : Int :=
    if s1.head? == some '-' then -(digitsToNat ds : Int) else (digitsToNat ds : Int)
  if ds.isEmpty ∨ n < int_min ∨ int_max < n then none
  else some (n, s2.drop ds.length)

/-- `std::stringstream >> std::string`: skip leading whitespace, read one
whitespace-delimited token; fail iff no character was extracted. -/
def extract_string (s : Str) : Option (Str × Str) :=
  let s1 := s.dropWhile isCppSpace
  let tok := s1.takeWhile (fun c => !isCppSpace c)
  if tok.isEmpty then none
  else some (tok, s1.drop tok.length)

/-- `INISection::get_as<int>` (simpleini.h:132-143): `get`, then stream
extraction; throws `INIException` iff the stream failed.  The unconsumed
remainder is ignored (there is no check that the whole value was read). -/
def INISection.get_as_int (sec : INISection) (key : Str) : Except CppError Int :=
  match sec.get key with
  | .error e => .error e
  | .ok val =>
    match extract_int val with
    | none => .error (.iniException (str "Conversion failed from value '" ++ val ++ str "'"))
    | some (retval, _) => .ok retval

/-- `INISection::get_as<std::string>` (simpleini.h:132-143), with
`operator>>` for `std::string` extracting a single token. -/
def INISection.get_as_string (sec : INISection) (key : Str) : Except CppError Str :=
  match sec.get key with
  | .error e => .error e
  | .ok val =>
    match extract_string val with
    | none => .error (.iniException (str "Conversion failed from value '" ++ val ++ str "'"))
    | some (retval, _) => .ok retval

/-- `SimpleINI::read_content` (simpleini.h:206-221) after the existence
check: keep exactly the lines passing `string_is_valid`, in order. -/
def read_content (fileLines : List Str) : List Str :=
  fileLines.filter string_is_valid

/-- The loop of `SimpleINI::parse_sections` (simpleini.h:223-250), with the
state `(m_sections, config_items, current_section)` passed explicitly.
On a '['-line: commit the accumulated items under `current_section` unless
it is empty (note: `config_items.clear()` only happens inside that guard),
then switch to the new name.  On a line containing '=': parse and insert the
pair (insert keeps an existing key).  Otherwise throw `INIException`.
At end of input, commit the open section if its name is non-empty. -/
def parse_sections (lines : List Str) (sections : List (Str × INISection))
    (config_items : List (Str × Str)) (current_section : Str) :
    Except CppError (List (Str × INISection)) :=
  match lines with
  | [] =>
    if current_section.isEmpty then .ok sections
    else .ok (mapInsert current_section ⟨current_section, config_items⟩ sections)
  | line :: rest =>
    if line.head? == some '[' then
      if current_section.isEmpty then
        parse_sections rest sections config_items (parse_section_value line)
      else
        parse_sections rest
          (mapInsert current_section ⟨current_section, config_items⟩ sections)
          [] (parse_section_value line)
    else if (findChar '=' line).isSome then
      match parse_key_value line with
      | .error e => .error e
      | .ok kv => parse_sections rest sections (mapInsert kv.1 kv.2 config_items) current_section
    else
      .error (.iniException (str "Failure when parsing line " ++ line))

/-- Loading an already-read file: filter, then parse from the empty state. -/
def SimpleINI_load (fileLines : List Str) : Except CppError (List (Str × INISection)) :=
  parse_sections (read_content fileLines) [] [] []

/-- The `SimpleINI(path)` constructor (simpleini.h:163-168): the file system
is modelled as `Option (List Str)` — `none` when no file exists at the
path, in which case `read_content` throws `INIException` (simpleini.h:208-210). -/
def SimpleINI_construct (path : Str) (file : Option (List Str)) :
    Except CppError (List (Str × INISection)) :=
  match file with
  | none => .error (.iniException (str "File not found:" ++ path))
  | some fileLines => SimpleINI_load fileLines

/-- `SimpleINI::operator[]` (simpleini.h:189-195): section lookup, throwing
`std::out_of_range` when absent. -/
def SimpleINI_index (sections : List (Str × INISection)) (key : Str) :
    Except CppError INISection :=
  match mapFind key sections with
  | none => .error (.outOfRange (str "No section '" ++ key ++ str "'"))
  | some s => .ok s

/-- Value of `doc[s][k]` when the load succeeded and both lookups hit. -/
def docFind (r : Except CppError (List (Str × INISection))) (s k : Str) : Option Str :=
  match r with
  | .error _ => none
  | .ok m =>
    match mapFind s m with
    | none => none
    | some sec => mapFind k sec.m_contents

/-- Modelled from the spec: `SimpleINI::write` is exercised by the reference
tests but its definition is not among the provided sources.  Per spec §4.4,
each section is rendered as a line `[name]` followed by one `key = value`
line per entry, sections separated by blank lines (the spec leaves the exact
separator style to the implementation); sections and entries are visited in
the `std::map` (sorted) iteration order of the in-memory maps. -/
def write_section (name : Str) (sec : INISection) : List Str :=
  ('[' :: name ++ [']']) :: sec.m_contents.map (fun kv => kv.1 ++ ' ' :: '=' :: ' ' :: kv.2)

/-- Modelled from the spec: the full serializer output of a Document,
`write_section` for each section followed by a blank separator line. -/
def write (sections : List (Str × INISection)) : List Str :=
  sections.foldr (fun ns acc => write_section ns.1 ns.2 ++ [[]] ++ acc) []

/-- load - write - load: the value-level round trip of spec §8. -/
def load_write_load (fileLines : List Str) : Except CppError (List (Str × INISection)) :=
  match SimpleINI_load fileLines with
  | .error e => .error e
  | .ok m => SimpleINI_load (write m)

/-- A string with no leading or trailing plain space, as `strip` returns. -/
def is_stripped (s : Str) : Bool :=
  !s.isEmpty && !(s.head? == some ' ') && !(s.reverse.head? == some ' ')

def good_entry (kv : Str × Str) : Bool :=
  is_stripped kv.1 && is_stripped kv.2 && !(kv.1.contains '=')

/-- Keys strictly increasing in adjacent pairs (the `std::map` invariant). -/
def sortedKeys {β : Type} : List (Str × β) → Bool
  | [] => true
  | [_] => true
  | (k, _) :: (k2, v2) :: rest => strLt k k2 && sortedKeys ((k2, v2) :: rest)

def good_section (ns : Str × INISection) : Bool :=
  !ns.1.isEmpty && !(ns.1.contains ']') && (ns.2.m_name == ns.1) &&
    ns.2.m_contents.all good_entry && sortedKeys ns.2.m_contents

/-- The invariant every successfully loaded Document satisfies. -/
def good_doc (m : List (Str × INISection)) : Bool :=
  m.all good_section && sortedKeys m

/-- A key whose `key = value` line survives re-reading: it does not begin
with a comment marker or a section-header bracket. -/
def key_writable (k : Str) : Bool :=
  !(k.head? == some ';') && !(k.head? == some '#') && !(k.head? == some '[')

def doc_writable (m : List (Str × INISection)) : Bool :=
  m.all (fun ns => ns.2.m_contents.all (fun kv => key_writable kv.1))

/-- A meaningful line the parser rejects: not a section header and no '='. -/
def line_is_invalid (l : Str) : Bool :=
  !(l.head? == some '[') && (findChar '=' l).isNone

/-- A line that, were it a key-value line, trims without throwing. -/
def kv_line_ok (l : Str) : Bool :=
  l.head? == some '[' || (findChar '=' l).isNone || isOkE (parse_key_value l)

/-- The serializer's meaningful lines: `write` without the blank separators
(which the Line Filter drops again on re-reading). -/
def pure_lines (m : List (Str × INISection)) : List Str :=
  m.foldr (fun ns acc => write_section ns.1 ns.2 ++ acc) []

/-- The invariant of the key-value accumulator `config_items`. -/
def good_config (config : List (Str × Str)) : Bool :=
  config.all good_entry && sortedKeys config

/-! Helper lemmas: the lexicographic key order. -/

theorem strLt_irrefl (a : Str) : strLt a a = false := by
  induction a with
  | nil => rfl
  | cons c cs ih => simp [strLt, ih, lt_irrefl]

theorem strLt_asymm {a b : Str} (h : strLt a b = true) : strLt b a = false := by
  induction a generalizing b with
  | nil => cases b with
    | nil => simp [strLt] at h
    | cons y ys => simp [strLt]
  | cons x xs ih =>
    cases b with
    | nil => simp [strLt] at h
    | cons y ys =>
      simp only [strLt] at h ⊢
      rcases lt_trichotomy x y with hxy | hxy | hxy
      · simp [hxy, not_lt_of_gt hxy]
      · subst hxy
        simp only [lt_irrefl, if_false] at h ⊢
        exact ih h
      · simp [hxy, not_lt_of_gt hxy] at h

theorem strLt_eq_of_not {a b : Str} (h1 : strLt a b = false) (h2 : strLt b a = false) :
    a = b := by
  induction a generalizing b with
  | nil => cases b with
    | nil => rfl
    | cons y ys => simp [strLt] at h1
  | cons x xs ih =>
    cases b with
    | nil => simp [strLt] at h2
    | cons y ys =>
      simp only [strLt] at h1 h2
      rcases lt_trichotomy x y with hxy | hxy | hxy
      · simp [hxy] at h1
      · subst hxy
        simp only [lt_irrefl, if_false] at h1 h2
        rw [ih h1 h2]
      · simp [hxy] at h2

theorem strLt_trans {a b c : Str} (h1 : strLt a b = true) (h2 : strLt b c = true) :
    strLt a c = true := by
  induction a generalizing b c with
  | nil =>
    cases c with
    | nil =>
      cases b with
      | nil => exact h2
      | cons y ys => simp [strLt] at h2
    | cons z zs => simp [strLt]
  | cons x xs ih =>
    cases b with
    | nil => simp [strLt] at h1
    | cons y ys =>
      cases c with
      | nil => simp [strLt] at h2
      | cons z zs =>
        simp only [strLt] at h1 h2 ⊢
        rcases lt_trichotomy x y with hxy | hxy | hxy
        · rcases lt_trichotomy y z with hyz | hyz | hyz
          · simp [lt_trans hxy hyz]
          · subst hyz; simp [hxy]
          · simp [hyz, not_lt_of_gt hyz] at h2
        · subst hxy
          simp only [lt_irrefl, if_false] at h1 ⊢
          rcases lt_trichotomy x z with hxz | hxz | hxz
          · simp [hxz]
          · subst hxz
            simp only [lt_irrefl, if_false] at h2 ⊢
            exact ih h1 h2
          · simp [hxz, not_lt_of_gt hxz] at h2
        · simp [hxy, not_lt_of_gt hxy] at h1

/-! Helper lemmas: `std::map` as a sorted association list. -/

theorem sortedKeys_cons {β : Type} {k : Str} {v : β} {rest : List (Str × β)}
    (h : sortedKeys ((k, v) :: rest) = true) : sortedKeys rest = true := by
  cases rest with
  | nil => rfl
  | cons p ps =>
    obtain ⟨p1, p2⟩ := p
    simp only [sortedKeys, Bool.and_eq_true] at h
    exact h.2

theorem sorted_lt_all {β : Type} {k : Str} {v : β} {rest : List (Str × β)}
    (h : sortedKeys ((k, v) :: rest) = true) :
    ∀ p ∈ rest, strLt k p.1 = true := by
  induction rest generalizing k v with
  | nil => intro p hp; cases hp
  | cons q qs ih =>
    intro p hp
    obtain ⟨q1, q2⟩ := q
    simp only [sortedKeys, Bool.and_eq_true] at h
    rcases List.mem_cons.mp hp with h' | h'
    · subst h'; exact h.1
    · exact strLt_trans h.1 (ih h.2 p h')

theorem mapFind_eq_none_of_lt_all {β : Type} {k : Str} {m : List (Str × β)}
    (h : ∀ p ∈ m, strLt k p.1 = true) : mapFind k m = none := by
  induction m with
  | nil => rfl
  | cons q qs ih =>
    obtain ⟨q1, q2⟩ := q
    have hk : strLt k q1 = true := h (q1, q2) (List.mem_cons_self _ _)
    have : k ≠ q1 := by
      intro he; subst he; simp [strLt_irrefl] at hk
    simp only [mapFind, if_neg this]
    exact ih (fun p hp => h p (List.mem_cons_of_mem _ hp))

theorem mapInsert_of_mem {β : Type} {k : Str} {v : β} {m : List (Str × β)}
    (hs : sortedKeys m = true) (hm : (mapFind k m).isSome = true) :
    mapInsert k v m = m := by
  induction m with
  | nil => simp [mapFind] at hm
  | cons q qs ih =>
    obtain ⟨q1, q2⟩ := q
    by_cases he : k = q1
    · subst he
      simp [mapInsert, strLt_irrefl]
    · simp only [mapFind, if_neg he] at hm
      have hq : strLt k q1 = false := by
        by_contra hq
        have hq' : strLt k q1 = true := by
          cases h : strLt k q1 with
          | false => exact absurd h hq
          | true => rfl
        have : mapFind k qs = none := by
          apply mapFind_eq_none_of_lt_all
          intro p hp
          exact strLt_trans hq' (sorted_lt_all hs p hp)
        rw [this] at hm; simp at hm
      have hq2 : strLt q1 k = true := by
        cases h : strLt q1 k with
        | true => rfl
        | false => exact absurd (strLt_eq_of_not hq h) he
      simp [mapInsert, hq, hq2, ih (sortedKeys_cons hs) hm]

theorem mapInsert_append {β : Type} {k : Str} {v : β} {m : List (Str × β)}
    (h : ∀ p ∈ m, strLt p.1 k = true) : mapInsert k v m = m ++ [(k, v)] := by
  induction m with
  | nil => rfl
  | cons q qs ih =>
    obtain ⟨q1, q2⟩ := q
    have hq : strLt q1 k = true := h (q1, q2) (List.mem_cons_self _ _)
    simp [mapInsert, strLt_asymm hq, hq, ih (fun p hp => h p (List.mem_cons_of_mem _ hp))]

/-! Helper lemmas: dropWhile, findChar and strip. -/

theorem head_dropWhile_false (p : Char → Bool) (l : Str) :
    ∀ c, (l.dropWhile p).head? = some c → p c = false := by
  induction l with
  | nil => intro c h; simp at h
  | cons x xs ih =>
    intro c h
    by_cases hx : p x
    · rw [List.dropWhile_cons_of_pos hx] at h
      exact ih c h
    · rw [List.dropWhile_cons_of_neg hx] at h
      simp at h
      subst h
      simpa using hx

theorem dropWhile_eq_self_of_head {p : Char → Bool} {l : Str}
    (h : ∀ c, l.head? = some c → p c = false) : l.dropWhile p = l := by
  cases l with
  | nil => rfl
  | cons x xs => exact List.dropWhile_cons_of_neg (by simp [h x rfl])

theorem mem_dropWhile {p : Char → Bool} {l : Str} {c : Char}
    (h : c ∈ l.dropWhile p) : c ∈ l := by
  rw [← List.takeWhile_append_dropWhile p l]
  exact List.mem_append_right _ h

theorem dropWhile_nil_of_all {p : Char → Bool} {l : Str} (h : l.all p = true) :
    l.dropWhile p = [] :=
  List.dropWhile_eq_nil_iff.mpr (by simpa [List.all_eq_true] using h)

theorem head_reverse_append {l x : Str} (h : l ≠ []) :
    (l ++ x).head? = l.head? := by
  cases l with
  | nil => exact absurd rfl h
  | cons a as => rfl

theorem strip_trailing_reverse (s : Str) :
    (strip_trailing s).reverse = s.reverse.dropWhile (· == ' ') := by
  simp [strip_trailing]

theorem strip_all_space {s : Str} (h : s.all (· == ' ') = true) :
    strip s = .error (.outOfRange substrMsg) := by
  have hrev : s.reverse.all (· == ' ') = true := by
    simpa [List.all_eq_true] using (by simpa [List.all_eq_true] using h :
      ∀ c ∈ s, (c == ' ') = true)
  have h1 : strip_trailing s = [] := by
    simp [strip_trailing, dropWhile_nil_of_all hrev]
  simp [strip, h1, strip_leading]

theorem strip_ok_shape {s t : Str} (h : strip s = .ok t) :
    t = (strip_trailing s).dropWhile (· == ' ') ∧
      (strip_trailing s).all (· == ' ') = false := by
  by_cases ha : (strip_trailing s).all (· == ' ')
  · simp [strip, strip_leading, ha] at h
  · constructor
    · simp only [strip, strip_leading, Bool.not_eq_true] at h
      rw [if_neg (by simp [ha])] at h
      exact (Except.ok.injEq _ _).mp h.symm
    · simpa using ha

theorem strip_ok_is_stripped {s t : Str} (h : strip s = .ok t) :
    is_stripped t = true := by
  obtain ⟨ht, ha⟩ := strip_ok_shape h
  have hne : t ≠ [] := by
    rw [ht]
    intro hnil
    have hall : (strip_trailing s).all (· == ' ') = true :=
      List.all_eq_true.mpr (List.dropWhile_eq_nil_iff.mp hnil)
    rw [hall] at ha
    cases ha
  have hhead : ∀ c, t.head? = some c → (c == ' ') = false := by
    rw [ht]; exact head_dropWhile_false _ _
  have hlast : ∀ c, t.reverse.head? = some c → (c == ' ') = false := by
    intro c hc
    have hsplit : strip_trailing s = (strip_trailing s).takeWhile (· == ' ') ++ t := by
      rw [ht, List.takeWhile_append_dropWhile]
    have hrev1 : (strip_trailing s).reverse =
        t.reverse ++ ((strip_trailing s).takeWhile (· == ' ')).reverse := by
      conv_lhs => rw [hsplit]
      simp
    have hrevne : t.reverse ≠ [] := by simpa using hne
    have : (strip_trailing s).reverse.head? = t.reverse.head? := by
      rw [hrev1, head_reverse_append hrevne]
    rw [strip_trailing_reverse] at this
    exact head_dropWhile_false _ _ c (this ▸ hc)
  cases t with
  | nil => exact absurd rfl hne
  | cons a as =>
    have h1 : (a == ' ') = false := hhead a rfl
    cases hr : (a :: as).reverse with
    | nil => simp at hr
    | cons b bs =>
      have h2 : (b == ' ') = false := hlast b (by rw [hr]; rfl)
      simp [is_stripped, hr, h1, h2]

theorem mem_strip_trailing {s : Str} {c : Char} (h : c ∈ strip_trailing s) : c ∈ s := by
  have : c ∈ (strip_trailing s).reverse := by simpa using h
  rw [strip_trailing_reverse] at this
  have := mem_dropWhile this
  simpa using this

theorem strip_ok_mem {s t : Str} (h : strip s = .ok t) : ∀ c ∈ t, c ∈ s := by
  intro c hc
  obtain ⟨ht, _⟩ := strip_ok_shape h
  rw [ht] at hc
  exact mem_strip_trailing (mem_dropWhile hc)

theorem is_stripped_parts {k : Str} (h : is_stripped k = true) :
    k ≠ [] ∧ (k.head? == some ' ') = false ∧ (k.reverse.head? == some ' ') = false := by
  simp only [is_stripped, Bool.and_eq_true, Bool.not_eq_true'] at h
  exact ⟨by simpa using h.1.1, h.1.2, h.2⟩

theorem dropWhile_space_of_stripped {k : Str} (h : is_stripped k = true) :
    k.dropWhile (· == ' ') = k := by
  obtain ⟨_, h2, _⟩ := is_stripped_parts h
  apply dropWhile_eq_self_of_head
  intro c hc
  rw [hc] at h2
  simpa using h2

theorem strip_key_pad {k : Str} (h : is_stripped k = true) :
    strip (k ++ [' ']) = .ok k := by
  obtain ⟨h1, h2, h3⟩ := is_stripped_parts h
  have hrevne : k.reverse ≠ [] := by simpa using h1
  have htr : strip_trailing (k ++ [' ']) = k := by
    have : (k ++ [' ']).reverse.dropWhile (· == ' ') = k.reverse := by
      simp only [List.reverse_append, List.reverse_cons, List.reverse_nil,
        List.nil_append, List.singleton_append]
      rw [List.dropWhile_cons_of_pos (by simp)]
      apply dropWhile_eq_self_of_head
      intro c hc
      rw [hc] at h3
      simpa using h3
    have := congrArg List.reverse this
    simpa [strip_trailing] using this
  have hall : k.all (· == ' ') = false := by
    cases k with
    | nil => exact absurd rfl h1
    | cons a as => simp at h2; simp [h2]
  rw [strip, htr, strip_leading, if_neg (by simp [hall]), dropWhile_space_of_stripped h]

theorem strip_val_pad {v : Str} (h : is_stripped v = true) :
    strip (' ' :: v) = .ok v := by
  obtain ⟨h1, h2, h3⟩ := is_stripped_parts h
  have hrevne : v.reverse ≠ [] := by simpa using h1
  have htr : strip_trailing (' ' :: v) = ' ' :: v := by
    have : (' ' :: v).reverse.dropWhile (· == ' ') = (' ' :: v).reverse := by
      simp only [List.reverse_cons]
      apply dropWhile_eq_self_of_head
      intro c hc
      rw [head_reverse_append hrevne] at hc
      rw [hc] at h3
      simpa using h3
    have := congrArg List.reverse this
    simpa [strip_trailing] using this
  have hall : (' ' :: v).all (· == ' ') = false := by
    cases v with
    | nil => exact absurd rfl h1
    | cons a as =>
      simp at h2
      simp [h2]
  rw [strip, htr, strip_leading, if_neg (by simp_all), List.dropWhile_cons_of_pos (by simp),
    dropWhile_space_of_stripped h]

theorem findChar_eq_none_iff {c : Char} {l : Str} : findChar c l = none ↔ c ∉ l := by
  induction l with
  | nil => simp [findChar]
  | cons x xs ih =>
    by_cases hx : x = c
    · subst hx; simp [findChar]
    · simp [findChar, hx, ih, Ne.symm hx]

theorem not_mem_take_of_findChar {c : Char} {l : Str} {e : Nat}
    (h : findChar c l = some e) : c ∉ l.take e := by
  induction l generalizing e with
  | nil => simp
  | cons x xs ih =>
    by_cases hx : x = c
    · subst hx
      simp [findChar] at h
      subst h
      simp
    · simp only [findChar, if_neg hx] at h
      cases he : findChar c xs with
      | none => rw [he] at h; simp at h
      | some e' =>
        rw [he] at h
        simp at h
        subst h
        simp only [List.take_succ_cons, List.mem_cons]
        push_neg
        exact ⟨Ne.symm hx, ih he⟩

theorem findChar_append {c : Char} {xs : Str} (ys : Str) (h : c ∉ xs) :
    findChar c (xs ++ ys) = (findChar c ys).map (· + xs.length) := by
  induction xs with
  | nil => simp
  | cons x rest ih =>
    have hx : x ≠ c := fun he => h (he ▸ List.mem_cons_self _ _)
    have hr : c ∉ rest := fun hm => h (List.mem_cons_of_mem _ hm)
    rw [List.cons_append]
    show (if x = c then some 0 else (findChar c (rest ++ ys)).map (· + 1)) = _
    rw [if_neg hx, ih hr]
    cases findChar c ys with
    | none => rfl
    | some e =>
      simp only [Option.map_some', List.length_cons]
      rw [Nat.add_assoc]

/-! C9 -/

/-- C9: the Line Filter keeps a raw line iff it is non-empty, does not start
with ';' or '#', and has at least one non-space character; the decision uses
the raw untrimmed line, so a tab-only line is kept and reaches the parser. -/
theorem c9_line_filter :
    (∀ s : Str, string_is_valid s = true ↔
      (s ≠ [] ∧ s.head? ≠ some ';' ∧ s.head? ≠ some '#' ∧ ∃ c ∈ s, ¬c = ' ')) ∧
    string_is_valid (str "\t") = true ∧ read_content [str "\t"] = [str "\t"] := by
  refine ⟨fun s => ?_, by decide, by decide⟩
  unfold string_is_valid
  rw [Bool.not_eq_true', Bool.or_eq_false_iff, Bool.or_eq_false_iff, Bool.or_eq_false_iff,
    List.all_eq_false]
  constructor
  · rintro ⟨⟨⟨h1, h2⟩, h3⟩, c, hc, hcs⟩
    exact ⟨List.isEmpty_eq_false.mp h1, by simpa using h2, by simpa using h3,
      c, hc, by simpa using hcs⟩
  · rintro ⟨h1, h2, h3, c, hc, hcs⟩
    exact ⟨⟨⟨List.isEmpty_eq_false.mpr h1, by simpa using h2⟩, by simpa using h3⟩,
      c, hc, by simpa using hcs⟩

/-! C8 -/

/-- C8: `strip` is not total: on the empty string or an all-space string,
`strip_leading` calls `substr` at `npos` and throws `std::out_of_range`;
consequently a key-value line with an empty or all-space side of the first
'=' (such as `key =` or `   = 1`) aborts the load with `std::out_of_range`
instead of the library's own `INIException`. -/
theorem c8_strip_out_of_range :
    (∀ s : Str, s.all (· == ' ') = true → strip s = .error (.outOfRange substrMsg)) ∧
    strip [] = .error (.outOfRange substrMsg) ∧
    exceptKind (SimpleINI_load [str "[s]", str "key ="]) = some .outOfRange ∧
    exceptKind (SimpleINI_load [str "[s]", str "   = 1"]) = some .outOfRange := by
  exact ⟨fun s h => strip_all_space h, by decide, by decide, by decide⟩

/-! C4 -/

/-- C4 counterexample: loading a nonexistent path and loading a file with an
invalid line raise errors of the SAME dynamic kind (`simpleini::INIException`),
so FileError is not distinguishable from ParseError by kind, contrary to the
claim. -/
theorem c4_counterexample :
    exceptKind (SimpleINI_construct (str "/path/to/nowhere.ini") none) =
      exceptKind (SimpleINI_load [str "stray line"]) ∧
    exceptKind (SimpleINI_construct (str "/path/to/nowhere.ini") none) =
      some .iniException := by decide

/-- C4 amended: the errors surface as exactly two distinguishable dynamic
kinds, not four: file-not-found, parse failures and conversion failures are
all `INIException`, while missing-section and missing-key lookups are
`std::out_of_range`; the two kinds are distinct. -/
theorem c4_two_kinds :
    CppErrorKind.iniException ≠ CppErrorKind.outOfRange ∧
    exceptKind (SimpleINI_construct (str "nowhere.ini") none) = some .iniException ∧
    exceptKind (SimpleINI_load [str "stray line"]) = some .iniException ∧
    exceptKind (INISection.get_as_int ⟨str "abc",
      [(str "val1", str "hello with trailing")]⟩ (str "val1")) = some .iniException ∧
    exceptKind (SimpleINI_index [(str "abc", ⟨str "abc", []⟩)] (str "nope")) =
      some .outOfRange ∧
    exceptKind (INISection.get ⟨str "abc", []⟩ (str "nope")) = some .outOfRange := by
  decide

/-! C2 -/

/-- C2 counterexample: the key-value line `a = 1` before the first header
`[s]` is NOT discarded: it appears in the first section subsequently opened. -/
theorem c2_counterexample :
    docFind (SimpleINI_load [str "a = 1", str "[s]", str "b = 2"]) (str "s") (str "a") =
      some (str "1") ∧
    docFind (SimpleINI_load [str "a = 1", str "[s]", str "b = 2"]) (str "s") (str "a") ≠
      none := by decide

/-- C2 amended: when the first section header is reached with no section
open, nothing is committed, but the accumulated pre-header key-value pairs
are NOT cleared: they are carried into the first opened section; and at end
of input with no section ever opened they are discarded. -/
theorem c2_pre_header_carry :
    (∀ (line : Str) (rest : List Str) (sections : List (Str × INISection))
      (config : List (Str × Str)), line.head? = some '[' →
      parse_sections (line :: rest) sections config [] =
        parse_sections rest sections config (parse_section_value line)) ∧
    (∀ (sections : List (Str × INISection)) (config : List (Str × Str)),
      parse_sections [] sections config [] = .ok sections) := by
  constructor
  · intro line rest sections config h
    simp [parse_sections, h]
  · intro sections config
    rfl

/-! C1 -/

/-- C1 counterexample: with two `k = ...` lines in section `[s]`, the stored
value is that of the FIRST line (`std::map::insert` keeps the existing
entry), not the last. -/
theorem c1_counterexample :
    docFind (SimpleINI_load [str "[s]", str "k = 1", str "k = 2"]) (str "s") (str "k") =
      some (str "1") ∧ str "1" ≠ str "2" := by decide

/-- C1 amended: duplicate keys within a section are FIRST-write-wins:
a key-value line whose (trimmed) key is already in the accumulated map
leaves the parse state completely unchanged. -/
theorem c1_first_write_wins (line : Str) (rest : List Str)
    (sections : List (Str × INISection)) (config : List (Str × Str)) (current k v : Str)
    (hline : line.head? ≠ some '[') (heq : (findChar '=' line).isSome = true)
    (hkv : parse_key_value line = .ok (k, v))
    (hsorted : sortedKeys config = true) (hmem : (mapFind k config).isSome = true) :
    parse_sections (line :: rest) sections config current =
      parse_sections rest sections config current := by
  have h1 : (line.head? == some '[') = false := by simpa using hline
  simp only [parse_sections, h1, Bool.false_eq_true, if_false, heq, if_true, hkv]
  rw [mapInsert_of_mem hsorted hmem]

theorem c1_first_write_wins_w :
    parse_sections [str "k = 2"] [] [(str "k", str "1")] (str "s") =
      parse_sections [] [] [(str "k", str "1")] (str "s") :=
  c1_first_write_wins (str "k = 2") [] [] [(str "k", str "1")] (str "s") (str "k")
    (str "2") (by decide) (by decide) (by decide) (by decide) (by decide)

/-! C6 -/

/-- C6 counterexample: with `[s]` appearing twice, the Document keeps the
Section built from the EARLIER occurrence (`k = 1`), not the later one. -/
theorem c6_counterexample :
    docFind (SimpleINI_load [str "[s]", str "k = 1", str "[t]", str "x = 9", str "[s]",
      str "k = 2"]) (str "s") (str "k") = some (str "1") ∧ str "1" ≠ str "2" := by decide

/-- C6 amended: duplicate section names are FIRST-occurrence-wins: committing
a section whose name is already in the Document map (at end of input, or at
the next header) leaves the map unchanged. -/
theorem c6_first_section_wins (line : Str) (rest : List Str)
    (sections : List (Str × INISection)) (config : List (Str × Str)) (current : Str)
    (hcur : current ≠ []) (hsorted : sortedKeys sections = true)
    (hmem : (mapFind current sections).isSome = true) :
    parse_sections [] sections config current = .ok sections ∧
    (line.head? = some '[' →
      parse_sections (line :: rest) sections config current =
        parse_sections rest sections [] (parse_section_value line)) := by
  have hne : current.isEmpty = false := by
    cases current with
    | nil => exact absurd rfl hcur
    | cons a as => rfl
  constructor
  · simp only [parse_sections, hne, Bool.false_eq_true, if_false]
    rw [mapInsert_of_mem hsorted hmem]
  · intro h
    simp only [parse_sections, h, hne, Bool.false_eq_true, if_false]
    rw [mapInsert_of_mem hsorted hmem]
    simp

theorem c6_first_section_wins_w :
    parse_sections [] [(str "s", ⟨str "s", [(str "k", str "1")]⟩)] [(str "k", str "2")]
      (str "s") = .ok [(str "s", ⟨str "s", [(str "k", str "1")]⟩)] :=
  (c6_first_section_wins (str "[t]") [] [(str "s", ⟨str "s", [(str "k", str "1")]⟩)]
    [(str "k", str "2")] (str "s") (by decide) (by decide) (by decide)).1

/-! C3 -/

theorem takeWhile_append_of_all {p : Char → Bool} {ds rest : Str}
    (h1 : ∀ c ∈ ds, p c = true) (h2 : ∀ c, rest.head? = some c → p c = false) :
    (ds ++ rest).takeWhile p = ds := by
  induction ds with
  | nil =>
    cases rest with
    | nil => rfl
    | cons r rs => simp [List.takeWhile_cons, h2 r rfl]
  | cons d dsx ih =>
    rw [List.cons_append, List.takeWhile_cons_of_pos (h1 d (List.mem_cons_self _ _))]
    rw [ih (fun c hc => h1 c (List.mem_cons_of_mem _ hc))]

theorem drop_length_append (ds rest : Str) : (ds ++ rest).drop ds.length = rest :=
  List.drop_left ds rest

/-- C3 counterexample: the stored value `3 with leading` (from the
reference test file) has unconsumed characters after the numeric prefix,
yet `get_as<int>` returns 3 instead of raising a ConversionError. -/
theorem c3_counterexample :
    INISection.get_as_int ⟨str "abc", [(str "val2", str "3 with leading")]⟩ (str "val2") =
      .ok 3 ∧
    exceptKind (INISection.get_as_int ⟨str "abc", [(str "val2", str "3 with leading")]⟩
      (str "val2")) = none := by decide

/-- C3 amended: `get_as<int>` does not require the whole trimmed string to
be consumed: whenever the stored value, after the stream's whitespace skip,
begins with a non-empty maximal digit run `ds` whose value fits in `int`,
the call succeeds and returns the number denoted by `ds`, ignoring any
unconsumed remainder; ConversionError is raised only when no numeric
prefix can be extracted at all or the extracted field is out of `int`'s
range (`failbit` on overflow). -/
theorem c3_numeric_prefix (sec : INISection) (key v ds rest : Str)
    (hv : mapFind key sec.m_contents = some v)
    (hsplit : v.dropWhile isCppSpace = ds ++ rest)
    (hne : ds ≠ []) (hdig : ∀ c ∈ ds, c.isDigit = true)
    (hrest : ∀ c, rest.head? = some c → c.isDigit = false)
    (hbound : digitsToNat ds ≤ 2147483647) :
    sec.get_as_int key = .ok (digitsToNat ds) := by
  cases ds with
  | nil => exact absurd rfl hne
  | cons d dsx =>
    have hd : d.isDigit = true := hdig d (List.mem_cons_self _ _)
    have hdm : (some d == some '-') = false := by
      have : d ≠ '-' := by
        intro he; subst he; exact absurd hd (by decide)
      simpa using this
    have hdp : (some d == some '+') = false := by
      have : d ≠ '+' := by
        intro he; subst he; exact absurd hd (by decide)
      simpa using this
    have htake : List.takeWhile Char.isDigit (d :: (dsx ++ rest)) = d :: dsx :=
      takeWhile_append_of_all hdig hrest
    have hsplit' : List.dropWhile isCppSpace v = d :: (dsx ++ rest) := hsplit
    have hcond : ¬(((d :: dsx).isEmpty : Prop) ∨
        ((digitsToNat (d :: dsx) : Int)) < int_min ∨
        int_max < ((digitsToNat (d :: dsx) : Int))) := by
      push_neg
      refine ⟨by simp, ?_, ?_⟩
      · have h0 := Int.natCast_nonneg (digitsToNat (d :: dsx))
        unfold int_min
        omega
      · have hb : ((digitsToNat (d :: dsx) : Int)) ≤ 2147483647 := by
          exact_mod_cast hbound
        unfold int_max
        omega
    have hcond2 : ¬(((digitsToNat (d :: dsx) : Int)) < int_min ∨
        int_max < ((digitsToNat (d :: dsx) : Int))) := fun h => hcond (Or.inr h)
    simp only [INISection.get_as_int, INISection.get, hv]
    simp only [extract_int, hsplit', List.head?_cons, hdm, hdp, Bool.or_self, htake]
    simp [hd, htake, hcond2]

theorem c3_numeric_prefix_w :
    INISection.get_as_int ⟨str "abc", [(str "val2", str "3 with leading")]⟩ (str "val2") =
      .ok (digitsToNat (str "3")) :=
  c3_numeric_prefix ⟨str "abc", [(str "val2", str "3 with leading")]⟩ (str "val2")
    (str "3 with leading") (str "3") (str " with leading") (by decide) (by decide)
    (by decide) (by decide) (by decide) (by decide)

/-! C7 -/

/-- C7 counterexample: `get_as<std::string>` does not return the stored
string: on the stored value `3 with leading` it returns only the first
token `3`, and on a stored empty string it raises a ConversionError. -/
theorem c7_counterexample :
    INISection.get_as_string ⟨str "abc", [(str "val2", str "3 with leading")]⟩
      (str "val2") = .ok (str "3") ∧
    str "3" ≠ str "3 with leading" ∧
    exceptKind (INISection.get_as_string ⟨str "e", [(str "k", [])]⟩ (str "k")) =
      some .iniException := by decide

/-- C7 amended: `get_as<std::string>` extracts one whitespace-delimited
token: when the stored value has at least one non-whitespace character it
succeeds and returns the first token (not the whole stored value); when the
stored value is empty or all whitespace it raises a ConversionError. -/
theorem c7_first_token (sec : INISection) (key v : Str)
    (hv : mapFind key sec.m_contents = some v) :
    (v.all isCppSpace = true → sec.get_as_string key =
      .error (.iniException (str "Conversion failed from value '" ++ v ++ str "'"))) ∧
    (v.all isCppSpace = false → sec.get_as_string key =
      .ok ((v.dropWhile isCppSpace).takeWhile (fun c => !isCppSpace c))) := by
  constructor
  · intro hall
    have hdrop : v.dropWhile isCppSpace = [] := dropWhile_nil_of_all hall
    simp [INISection.get_as_string, INISection.get, hv, extract_string, hdrop]
  · intro hall
    have hdrop : v.dropWhile isCppSpace ≠ [] := by
      intro hnil
      rw [List.all_eq_false] at hall
      obtain ⟨c, hc, hcs⟩ := hall
      exact hcs (List.dropWhile_eq_nil_iff.mp hnil c hc)
    simp only [INISection.get_as_string, INISection.get, hv, extract_string]
    cases hd : v.dropWhile isCppSpace with
    | nil => exact absurd hd hdrop
    | cons c cs =>
      have hc : isCppSpace c = false := head_dropWhile_false _ _ c (by rw [hd]; rfl)
      rw [List.takeWhile_cons_of_pos (by simp [hc])]
      simp

theorem c7_first_token_w :
    INISection.get_as_string ⟨str "abc", [(str "val2", str "3 with leading")]⟩
      (str "val2") = .ok (str "3") :=
  (c7_first_token ⟨str "abc", [(str "val2", str "3 with leading")]⟩ (str "val2")
    (str "3 with leading") (by decide)).2 (by decide)

/-! C5 -/

theorem parse_sections_not_ok_of_invalid (lines : List Str) :
    ∀ sections config current, (∃ l ∈ lines, line_is_invalid l = true) →
    isOkE (parse_sections lines sections config current) = false := by
  induction lines with
  | nil =>
    rintro _ _ _ ⟨l, hl, _⟩
    cases hl
  | cons line rest ih =>
    rintro sections config current ⟨l, hl, hinv⟩
    by_cases h1 : (line.head? == some '[') = true
    · have hlr : l ∈ rest := by
        rcases List.mem_cons.mp hl with rfl | h
        · exfalso; simp [line_is_invalid, h1] at hinv
        · exact h
      simp only [parse_sections, h1, if_true]
      rcases Bool.eq_false_or_eq_true current.isEmpty with h2 | h2 <;>
        simp only [h2, Bool.false_eq_true, if_true, if_false] <;>
        exact ih _ _ _ ⟨l, hlr, hinv⟩
    · have h1f : (line.head? == some '[') = false := by simpa using h1
      by_cases h2 : (findChar '=' line).isSome = true
      · have hlr : l ∈ rest := by
          rcases List.mem_cons.mp hl with rfl | h
          · exfalso
            simp only [line_is_invalid, Bool.and_eq_true] at hinv
            rw [Option.isNone_iff_eq_none] at hinv
            rw [hinv.2] at h2
            cases h2
          · exact h
        simp only [parse_sections, h1f, Bool.false_eq_true, if_false, h2, if_true]
        cases hpk : parse_key_value line with
        | error e => rfl
        | ok kv => exact ih _ _ _ ⟨l, hlr, hinv⟩
      · have h2f : (findChar '=' line).isSome = false := by simpa using h2
        simp only [parse_sections, h1f, h2f, Bool.false_eq_true, if_false]
        rfl

theorem parse_sections_ini_error_of_invalid (lines : List Str) :
    ∀ sections config current, (∃ l ∈ lines, line_is_invalid l = true) →
    (∀ l ∈ lines, kv_line_ok l = true) →
    exceptKind (parse_sections lines sections config current) =
      some .iniException := by
  induction lines with
  | nil =>
    rintro _ _ _ ⟨l, hl, _⟩ _
    cases hl
  | cons line rest ih =>
    rintro sections config current ⟨l, hl, hinv⟩ hok
    have hokr : ∀ l ∈ rest, kv_line_ok l = true :=
      fun l hlr => hok l (List.mem_cons_of_mem _ hlr)
    by_cases h1 : (line.head? == some '[') = true
    · have hlr : l ∈ rest := by
        rcases List.mem_cons.mp hl with rfl | h
        · exfalso; simp [line_is_invalid, h1] at hinv
        · exact h
      simp only [parse_sections, h1, if_true]
      rcases Bool.eq_false_or_eq_true current.isEmpty with h2 | h2 <;>
        simp only [h2, Bool.false_eq_true, if_true, if_false] <;>
        exact ih _ _ _ ⟨l, hlr, hinv⟩ hokr
    · have h1f : (line.head? == some '[') = false := by simpa using h1
      by_cases h2 : (findChar '=' line).isSome = true
      · have hlr : l ∈ rest := by
          rcases List.mem_cons.mp hl with rfl | h
          · exfalso
            simp only [line_is_invalid, Bool.and_eq_true] at hinv
            rw [Option.isNone_iff_eq_none] at hinv
            rw [hinv.2] at h2
            cases h2
          · exact h
        have hkv : isOkE (parse_key_value line) = true := by
          have := hok line (List.mem_cons_self _ _)
          simp only [kv_line_ok, Bool.or_eq_true] at this
          rcases this with (hc | hc) | hc
          · rw [hc] at h1f; cases h1f
          · rw [Option.isNone_iff_eq_none] at hc
            rw [hc] at h2; cases h2
          · exact hc
        simp only [parse_sections, h1f, Bool.false_eq_true, if_false, h2, if_true]
        cases hpk : parse_key_value line with
        | error e => rw [hpk] at hkv; cases hkv
        | ok kv => exact ih _ _ _ ⟨l, hlr, hinv⟩ hokr
      · have h2f : (findChar '=' line).isSome = false := by simpa using h2
        simp only [parse_sections, h1f, h2f, Bool.false_eq_true, if_false]
        rfl

/-- C5 counterexample: the file with lines `k =` and `x` contains a
meaningful line (`x`) with no '=' and not starting with '[', yet
constructing from it raises `std::out_of_range` (from trimming the earlier
`k =` line), not the ParseError `INIException` the claim demands. -/
theorem c5_counterexample :
    exceptKind (SimpleINI_construct (str "f.ini") (some [str "k =", str "x"])) =
      some .outOfRange ∧
    CppErrorKind.outOfRange ≠ CppErrorKind.iniException ∧
    line_is_invalid (str "x") = true ∧
    (str "x") ∈ read_content [str "k =", str "x"] := by decide

/-- C5 amended: a file containing a meaningful line that neither starts
with '[' nor contains '=' never constructs a usable Document — the load
always aborts with an error; that error is the ParseError `INIException`
provided every meaningful key-value line trims without throwing (otherwise
an earlier `std::out_of_range` from `strip` aborts the load instead). -/
theorem c5_parse_abort (path : Str) (fileLines : List Str)
    (h : ∃ l ∈ read_content fileLines, line_is_invalid l = true) :
    isOkE (SimpleINI_construct path (some fileLines)) = false ∧
    ((∀ l ∈ read_content fileLines, kv_line_ok l = true) →
      exceptKind (SimpleINI_construct path (some fileLines)) = some .iniException) := by
  constructor
  · exact parse_sections_not_ok_of_invalid _ _ _ _ h
  · intro hok
    exact parse_sections_ini_error_of_invalid _ _ _ _ h hok

theorem c5_parse_abort_w :
    isOkE (SimpleINI_construct (str "f.ini") (some [str "x"])) = false :=
  (c5_parse_abort (str "f.ini") [str "x"] ⟨str "x", by decide, by decide⟩).1

/-! C10: round-trip lemmas.  Note `'[' :: name ++ [']']` parses as
`('[' :: name) ++ [']']`. -/

theorem contains_eq_false_iff {l : Str} {c : Char} :
    l.contains c = false ↔ c ∉ l := by
  constructor
  · intro h hm
    have h' : List.elem c l = false := h
    rw [List.elem_iff.mpr hm] at h'
    cases h'
  · intro h
    cases hc : l.contains c with
    | false => rfl
    | true => exact absurd (List.elem_iff.mp hc) h

theorem string_is_valid_header (name : Str) :
    string_is_valid ('[' :: name ++ [']']) = true := by
  rw [List.cons_append]
  have h1 : ('[' :: (name ++ [']'])).isEmpty = false := rfl
  have h2 : ('[' :: (name ++ [']'])).head? = some '[' := rfl
  have h3 : (('[' :: (name ++ [']'])).all (· == ' ')) = false :=
    List.all_eq_false.mpr ⟨'[', List.mem_cons_self _ _, by decide⟩
  unfold string_is_valid
  rw [h1, h2, h3]
  decide

theorem string_is_valid_kv {k : Str} (v : Str) (hne : k ≠ [])
    (h1 : (k.head? == some ';') = false) (h2 : (k.head? == some '#') = false) :
    string_is_valid (k ++ ' ' :: '=' :: ' ' :: v) = true := by
  cases k with
  | nil => exact absurd rfl hne
  | cons c cs =>
    have he : ((c :: cs) ++ ' ' :: '=' :: ' ' :: v).isEmpty = false := rfl
    have hh : ((c :: cs) ++ ' ' :: '=' :: ' ' :: v).head? = some c := rfl
    have ha : (((c :: cs) ++ ' ' :: '=' :: ' ' :: v).all (· == ' ')) = false := by
      apply List.all_eq_false.mpr
      refine ⟨'=', ?_, by decide⟩
      exact List.mem_append_right _ (List.mem_cons_of_mem _ (List.mem_cons_self _ _))
    have hh1 : (some c == some ';') = false := by simpa using h1
    have hh2 : (some c == some '#') = false := by simpa using h2
    unfold string_is_valid
    rw [he, hh, ha, hh1, hh2]
    decide

theorem psv_not_mem_rbracket (l : Str) : ']' ∉ parse_section_value l := by
  unfold parse_section_value
  cases hf : findChar ']' l with
  | none =>
    intro hm
    have hm' : ']' ∈ l.drop 1 := hm
    exact findChar_eq_none_iff.mp hf (List.mem_of_mem_drop hm')
  | some e =>
    intro hm
    have hm' : ']' ∈ (l.drop 1).take (e - 1) := hm
    rw [← List.drop_take] at hm'
    exact not_mem_take_of_findChar hf (List.mem_of_mem_drop hm')

theorem psv_no_rbracket (l : Str) : (parse_section_value l).contains ']' = false :=
  contains_eq_false_iff.mpr (psv_not_mem_rbracket l)

theorem psv_roundtrip {name : Str} (h : name.contains ']' = false) :
    parse_section_value ('[' :: name ++ [']']) = name := by
  have hnm : ']' ∉ name := contains_eq_false_iff.mp h
  rw [List.cons_append]
  have hf : findChar ']' ('[' :: (name ++ [']'])) = some (name.length + 1) := by
    have h0 : findChar ']' (name ++ [']']) = some name.length := by
      rw [findChar_append [']'] hnm]
      simp [findChar]
    show (if '[' = ']' then some 0 else (findChar ']' (name ++ [']'])).map (· + 1)) = _
    rw [if_neg (by decide), h0]
    rfl
  unfold parse_section_value
  rw [hf]
  simp only [List.drop_succ_cons, List.drop_zero, Nat.add_sub_cancel]
  exact List.take_left name [']']

theorem parse_kv_line {k v : Str} (h : good_entry (k, v) = true) :
    parse_key_value (k ++ ' ' :: '=' :: ' ' :: v) = .ok (k, v) := by
  simp only [good_entry, Bool.and_eq_true] at h
  obtain ⟨⟨hk, hv⟩, hkeq⟩ := h
  have hknm : '=' ∉ k := by
    apply contains_eq_false_iff.mp
    simpa using hkeq
  have hf : findChar '=' (k ++ ' ' :: '=' :: ' ' :: v) = some (k.length + 1) := by
    rw [findChar_append (' ' :: '=' :: ' ' :: v) hknm]
    have h01 : findChar '=' (' ' :: '=' :: ' ' :: v) = some 1 := by
      show (if ' ' = '=' then some 0
        else (findChar '=' ('=' :: ' ' :: v)).map (· + 1)) = some 1
      rw [if_neg (by decide)]
      show (some 0).map (· + 1) = some 1
      rfl
    rw [h01]
    show some (1 + k.length) = some (k.length + 1)
    rw [Nat.add_comm]
  have htake : (k ++ ' ' :: '=' :: ' ' :: v).take (k.length + 1) = k ++ [' '] := by
    have h1 := @List.take_append Char k (' ' :: '=' :: ' ' :: v) 1
    simpa using h1
  have hdrop : (k ++ ' ' :: '=' :: ' ' :: v).drop (k.length + 1 + 1) = ' ' :: v := by
    have h2 := @List.drop_append Char k (' ' :: '=' :: ' ' :: v) 2
    rw [Nat.add_assoc]
    exact h2
  unfold parse_key_value
  rw [hf]
  simp only [htake, hdrop, strip_key_pad hk, strip_val_pad hv]

theorem mapInsert_ne_nil {β : Type} (k : Str) (v : β) (m : List (Str × β)) :
    mapInsert k v m ≠ [] := by
  cases m with
  | nil => simp [mapInsert]
  | cons q rest =>
    obtain ⟨q1, q2⟩ := q
    unfold mapInsert
    by_cases h1 : strLt k q1 = true
    · simp [h1]
    · by_cases h2 : strLt q1 k = true <;> simp [h1, h2]

theorem mapInsert_head {β : Type} (k : Str) (v : β) (m : List (Str × β)) :
    (mapInsert k v m).head? = some (k, v) ∨ (mapInsert k v m).head? = m.head? := by
  cases m with
  | nil => left; rfl
  | cons q rest =>
    obtain ⟨q1, q2⟩ := q
    unfold mapInsert
    by_cases h1 : strLt k q1 = true
    · left; simp [h1]
    · by_cases h2 : strLt q1 k = true <;> simp [h1, h2]

theorem sortedKeys_cons_of {β : Type} {q : Str × β} {l : List (Str × β)}
    (h1 : ∀ x, l.head? = some x → strLt q.1 x.1 = true) (h2 : sortedKeys l = true) :
    sortedKeys (q :: l) = true := by
  obtain ⟨q1, q2⟩ := q
  cases l with
  | nil => rfl
  | cons x xs =>
    obtain ⟨x1, x2⟩ := x
    simp only [sortedKeys, Bool.and_eq_true]
    exact ⟨h1 (x1, x2) rfl, h2⟩

theorem mapInsert_sorted {β : Type} {k : Str} {v : β} {m : List (Str × β)}
    (h : sortedKeys m = true) : sortedKeys (mapInsert k v m) = true := by
  induction m with
  | nil => rfl
  | cons q rest ih =>
    obtain ⟨q1, q2⟩ := q
    unfold mapInsert
    by_cases h1 : strLt k q1 = true
    · simp only [h1, if_true]
      apply sortedKeys_cons_of _ h
      intro x hx
      rw [(rfl : ((q1, q2) :: rest).head? = some (q1, q2))] at hx
      cases hx
      exact h1
    · simp only [h1, Bool.false_eq_true, if_false]
      by_cases h2 : strLt q1 k = true
      · simp only [h2, if_true]
        have hrest := sortedKeys_cons h
        apply sortedKeys_cons_of _ (ih hrest)
        intro x hx
        rcases mapInsert_head k v rest with hh | hh
        · rw [hh] at hx
          cases hx
          exact h2
        · rw [hh] at hx
          exact sorted_lt_all h x (List.mem_of_mem_head? hx)
      · simp only [h2, Bool.false_eq_true, if_false]
        exact h
    
theorem mapInsert_all {β : Type} {p : Str × β → Bool} {k : Str} {v : β}
    {m : List (Str × β)} (hm : m.all p = true) (hkv : p (k, v) = true) :
    (mapInsert k v m).all p = true := by
  induction m with
  | nil => simpa [mapInsert] using hkv
  | cons q rest ih =>
    obtain ⟨q1, q2⟩ := q
    rw [List.all_cons, Bool.and_eq_true] at hm
    obtain ⟨hq, hrest⟩ := hm
    unfold mapInsert
    by_cases h1 : strLt k q1 = true
    · simp [h1, hkv, hq, hrest]
    · by_cases h2 : strLt q1 k = true
      · simp only [h1, h2, Bool.false_eq_true, if_false, if_true, List.all_cons,
          Bool.and_eq_true]
        exact ⟨hq, ih hrest⟩
      · simp [h1, h2, hq, hrest]

theorem sorted_append_lt {β : Type} {acc : List (Str × β)} {k : Str} {v : β}
    {rest : List (Str × β)} (h : sortedKeys (acc ++ (k, v) :: rest) = true) :
    ∀ p ∈ acc, strLt p.1 k = true := by
  induction acc with
  | nil => intro p hp; cases hp
  | cons q qs ih =>
    obtain ⟨q1, q2⟩ := q
    intro p hp
    rw [List.cons_append] at h
    rcases List.mem_cons.mp hp with rfl | hp'
    · have : (k, v) ∈ qs ++ (k, v) :: rest :=
        List.mem_append_right _ (List.mem_cons_self _ _)
      exact sorted_lt_all h (k, v) this
    · exact ih (sortedKeys_cons h) p hp'

theorem foldl_mapInsert_sorted {β : Type} (entries : List (Str × β)) :
    ∀ acc : List (Str × β), sortedKeys (acc ++ entries) = true →
    entries.foldl (fun c kv => mapInsert kv.1 kv.2 c) acc = acc ++ entries := by
  induction entries with
  | nil => intro acc _; simp
  | cons e rest ih =>
    intro acc h
    obtain ⟨k, v⟩ := e
    rw [List.foldl_cons]
    have hins : mapInsert k v acc = acc ++ [(k, v)] :=
      mapInsert_append (sorted_append_lt h)
    rw [hins]
    have h' : sortedKeys ((acc ++ [(k, v)]) ++ rest) = true := by
      rw [List.append_assoc, List.singleton_append]
      exact h
    rw [ih (acc ++ [(k, v)]) h', List.append_assoc, List.singleton_append]

theorem good_section_parts {name : Str} {sec : INISection}
    (h : good_section (name, sec) = true) :
    name ≠ [] ∧ name.contains ']' = false ∧ sec.m_name = name ∧
      sec.m_contents.all good_entry = true ∧ sortedKeys sec.m_contents = true := by
  simp only [good_section, Bool.and_eq_true] at h
  obtain ⟨⟨⟨⟨h1, h2⟩, h3⟩, h4⟩, h5⟩ := h
  refine ⟨?_, ?_, ?_, h4, h5⟩
  · intro hnil
    rw [hnil] at h1
    cases h1
  · simpa using h2
  · simpa using h3

theorem good_entry_parts {k v : Str} (h : good_entry (k, v) = true) :
    is_stripped k = true ∧ is_stripped v = true ∧ k.contains '=' = false := by
  simp only [good_entry, Bool.and_eq_true] at h
  exact ⟨h.1.1, h.1.2, by simpa using h.2⟩

theorem key_writable_parts {k : Str} (h : key_writable k = true) :
    (k.head? == some ';') = false ∧ (k.head? == some '#') = false ∧
      (k.head? == some '[') = false := by
  simp only [key_writable, Bool.and_eq_true] at h
  exact ⟨by simpa using h.1.1, by simpa using h.1.2, by simpa using h.2⟩

theorem good_section_build {name : Str} {config : List (Str × Str)}
    (h1 : name.isEmpty = false) (h2 : name.contains ']' = false)
    (hc : good_config config = true) :
    good_section (name, ⟨name, config⟩) = true := by
  simp only [good_config, Bool.and_eq_true] at hc
  have h2' : ']' ∉ name := contains_eq_false_iff.mp h2
  simp [good_section, h1, h2, h2', hc.1, hc.2]

theorem good_doc_insert {sections : List (Str × INISection)} {name : Str}
    {sec : INISection} (hs : good_doc sections = true)
    (hgs : good_section (name, sec) = true) :
    good_doc (mapInsert name sec sections) = true := by
  simp only [good_doc, Bool.and_eq_true] at hs ⊢
  exact ⟨mapInsert_all hs.1 hgs, mapInsert_sorted hs.2⟩

theorem good_config_insert {config : List (Str × Str)} {k v : Str}
    (hc : good_config config = true) (he : good_entry (k, v) = true) :
    good_config (mapInsert k v config) = true := by
  simp only [good_config, Bool.and_eq_true] at hc ⊢
  exact ⟨mapInsert_all hc.1 he, mapInsert_sorted hc.2⟩

theorem parse_key_value_good {l k v : Str}
    (h : parse_key_value l = .ok (k, v)) : good_entry (k, v) = true := by
  unfold parse_key_value at h
  cases hf : findChar '=' l with
  | some e =>
    rw [hf] at h
    replace h : (match strip (l.take e) with
      | Except.error er => Except.error er
      | Except.ok key =>
        match strip (l.drop (e + 1)) with
        | Except.error er => Except.error er
        | Except.ok value => Except.ok (key, value)) = Except.ok (k, v) := h
    cases hsk : strip (l.take e) with
    | error e' => rw [hsk] at h; cases h
    | ok key =>
      rw [hsk] at h
      cases hsv : strip (l.drop (e + 1)) with
      | error e' => rw [hsv] at h; cases h
      | ok value =>
        rw [hsv] at h
        simp only [Except.ok.injEq, Prod.mk.injEq] at h
        obtain ⟨hk, hv⟩ := h
        subst hk; subst hv
        have h1 : is_stripped key = true := strip_ok_is_stripped hsk
        have h2 : is_stripped value = true := strip_ok_is_stripped hsv
        have h3 : key.contains '=' = false := by
          apply contains_eq_false_iff.mpr
          intro hm
          exact not_mem_take_of_findChar hf (strip_ok_mem hsk '=' hm)
        simp [good_entry, h1, h2, h3, contains_eq_false_iff.mp h3]
  | none =>
    rw [hf] at h
    replace h : (match strip l with
      | Except.error er => Except.error er
      | Except.ok key =>
        match strip l with
        | Except.error er => Except.error er
        | Except.ok value => Except.ok (key, value)) = Except.ok (k, v) := h
    cases hsk : strip l with
    | error e' => rw [hsk] at h; cases h
    | ok key =>
      rw [hsk] at h
      simp only [Except.ok.injEq, Prod.mk.injEq] at h
      obtain ⟨hk, hv⟩ := h
      subst hk; subst hv
      have h1 : is_stripped key = true := strip_ok_is_stripped hsk
      have h3 : key.contains '=' = false := by
        apply contains_eq_false_iff.mpr
        intro hm
        exact findChar_eq_none_iff.mp hf (strip_ok_mem hsk '=' hm)
      simp [good_entry, h1, h3, contains_eq_false_iff.mp h3]

theorem parse_sections_good (lines : List Str) :
    ∀ (sections : List (Str × INISection)) (config : List (Str × Str)) (current : Str)
      (m : List (Str × INISection)),
    good_doc sections = true → good_config config = true →
    current.contains ']' = false →
    parse_sections lines sections config current = .ok m →
    good_doc m = true := by
  induction lines with
  | nil =>
    intro sections config current m hs hc hcur h
    unfold parse_sections at h
    by_cases he : current.isEmpty = true
    · rw [if_pos he] at h
      simp only [Except.ok.injEq] at h
      subst h
      exact hs
    · have he' : current.isEmpty = false := by simpa using he
      rw [he'] at h
      simp only [Bool.false_eq_true, if_false, Except.ok.injEq] at h
      subst h
      exact good_doc_insert hs (good_section_build he' hcur hc)
  | cons line rest ih =>
    intro sections config current m hs hc hcur h
    by_cases h1 : (line.head? == some '[') = true
    · simp only [parse_sections, h1, if_true] at h
      by_cases he : current.isEmpty = true
      · rw [if_pos he] at h
        exact ih _ _ _ _ hs hc (psv_no_rbracket line) h
      · have he' : current.isEmpty = false := by simpa using he
        rw [he'] at h
        simp only [Bool.false_eq_true, if_false] at h
        exact ih _ _ _ _ (good_doc_insert hs (good_section_build he' hcur hc)) (by rfl)
          (psv_no_rbracket line) h
    · have h1f : (line.head? == some '[') = false := by simpa using h1
      by_cases h2 : (findChar '=' line).isSome = true
      · simp only [parse_sections, h1f, Bool.false_eq_true, if_false, h2, if_true] at h
        cases hpk : parse_key_value line with
        | error e => rw [hpk] at h; cases h
        | ok kv =>
          obtain ⟨k, v⟩ := kv
          rw [hpk] at h
          exact ih _ _ _ _ hs (good_config_insert hc (parse_key_value_good hpk)) hcur h
      · have h2f : (findChar '=' line).isSome = false := by simpa using h2
        simp only [parse_sections, h1f, h2f, Bool.false_eq_true, if_false] at h
        cases h

theorem findChar_eq_kv_line {k : Str} (v : Str) (hknm : '=' ∉ k) :
    findChar '=' (k ++ ' ' :: '=' :: ' ' :: v) = some (k.length + 1) := by
  rw [findChar_append (' ' :: '=' :: ' ' :: v) hknm]
  have h01 : findChar '=' (' ' :: '=' :: ' ' :: v) = some 1 := by
    show (if ' ' = '=' then some 0
      else (findChar '=' ('=' :: ' ' :: v)).map (· + 1)) = some 1
    rw [if_neg (by decide)]
    show (some 0).map (· + 1) = some 1
    rfl
  rw [h01]
  show some (1 + k.length) = some (k.length + 1)
  rw [Nat.add_comm]

theorem read_content_write (m : List (Str × INISection))
    (hg : m.all good_section = true) (hw : doc_writable m = true) :
    read_content (write m) = pure_lines m := by
  induction m with
  | nil => rfl
  | cons ns rest ih =>
    obtain ⟨name, sec⟩ := ns
    rw [List.all_cons, Bool.and_eq_true] at hg
    obtain ⟨hgs, hgrest⟩ := hg
    simp only [doc_writable, List.all_cons, Bool.and_eq_true] at hw
    obtain ⟨hws, hwrest⟩ := hw
    obtain ⟨hne, _, _, hce, _⟩ := good_section_parts hgs
    have hstep : write ((name, sec) :: rest) =
        (write_section name sec ++ [[]]) ++ write rest := rfl
    have hpure : pure_lines ((name, sec) :: rest) =
        write_section name sec ++ pure_lines rest := rfl
    rw [hstep, hpure]
    unfold read_content
    rw [List.filter_append, List.filter_append]
    have hkv : (sec.m_contents.map
        (fun kv => kv.1 ++ ' ' :: '=' :: ' ' :: kv.2)).filter string_is_valid =
        sec.m_contents.map (fun kv => kv.1 ++ ' ' :: '=' :: ' ' :: kv.2) := by
      apply List.filter_eq_self.mpr
      intro line hline
      obtain ⟨⟨k0, v0⟩, hmem, hline'⟩ := List.mem_map.mp hline
      subst hline'
      have hge : good_entry (k0, v0) = true := by
        rw [List.all_eq_true] at hce
        exact hce _ hmem
      have hwe : key_writable k0 = true := by
        rw [List.all_eq_true] at hws
        exact hws _ hmem
      obtain ⟨hk0, _, _⟩ := good_entry_parts hge
      obtain ⟨hw1, hw2, _⟩ := key_writable_parts hwe
      exact string_is_valid_kv v0 (is_stripped_parts hk0).1 hw1 hw2
    have hsec : (write_section name sec).filter string_is_valid =
        write_section name sec := by
      unfold write_section
      rw [List.filter_cons_of_pos (string_is_valid_header name), hkv]
    rw [hsec]
    have hblank : List.filter string_is_valid [[]] = ([] : List Str) := rfl
    have ih' : List.filter string_is_valid (write rest) = pure_lines rest :=
      ih hgrest hwrest
    rw [hblank, ih']
    simp

theorem parse_kv_block (entries : List (Str × Str)) :
    ∀ (more : List Str) (sections : List (Str × INISection))
      (config : List (Str × Str)) (current : Str),
    entries.all good_entry = true →
    entries.all (fun kv => key_writable kv.1) = true →
    parse_sections (entries.map (fun kv => kv.1 ++ ' ' :: '=' :: ' ' :: kv.2) ++ more)
      sections config current =
    parse_sections more sections
      (entries.foldl (fun c kv => mapInsert kv.1 kv.2 c) config) current := by
  induction entries with
  | nil => intro more sections config current _ _; rfl
  | cons e rest ih =>
    intro more sections config current hg hw
    obtain ⟨k, v⟩ := e
    rw [List.all_cons, Bool.and_eq_true] at hg hw
    obtain ⟨hge, hgrest⟩ := hg
    obtain ⟨hwe, hwrest⟩ := hw
    obtain ⟨hk, hv, hkeq⟩ := good_entry_parts hge
    obtain ⟨_, _, hkb⟩ := key_writable_parts hwe
    obtain ⟨hkne, _, _⟩ := is_stripped_parts hk
    have hheadeq : (k ++ ' ' :: '=' :: ' ' :: v).head? = k.head? :=
      head_reverse_append hkne
    have hline : ((k ++ ' ' :: '=' :: ' ' :: v).head? == some '[') = false := by
      rw [hheadeq]; exact hkb
    have hfind : (findChar '=' (k ++ ' ' :: '=' :: ' ' :: v)).isSome = true := by
      rw [findChar_eq_kv_line v (contains_eq_false_iff.mp (by simpa using hkeq))]
      rfl
    rw [List.map_cons, List.cons_append]
    simp only [parse_sections, hline, Bool.false_eq_true, if_false, hfind, if_true,
      parse_kv_line hge]
    rw [ih more sections (mapInsert k v config) current hgrest hwrest, List.foldl_cons]

theorem parse_sec_blocks (ms : List (Str × INISection)) :
    ∀ (name : Str) (sec : INISection) (acc : List (Str × INISection)),
    good_section (name, sec) = true →
    ms.all good_section = true →
    doc_writable ms = true →
    sortedKeys (acc ++ (name, sec) :: ms) = true →
    parse_sections (pure_lines ms) acc sec.m_contents name =
      .ok (acc ++ (name, sec) :: ms) := by
  induction ms with
  | nil =>
    intro name sec acc hgs _ _ hsort
    obtain ⟨hne, hnb, hmn, hce, hcs⟩ := good_section_parts hgs
    have hie : name.isEmpty = false := by
      cases name with
      | nil => exact absurd rfl hne
      | cons a as => rfl
    have hsec : (⟨name, sec.m_contents⟩ : INISection) = sec := by
      cases sec with
      | mk n c =>
        simp only at hmn
        rw [hmn]
    show parse_sections [] acc sec.m_contents name = _
    unfold parse_sections
    rw [hie]
    simp only [Bool.false_eq_true, if_false]
    rw [hsec, mapInsert_append (sorted_append_lt hsort)]
  | cons ns2 rest ih =>
    intro name sec acc hgs hms hw hsort
    obtain ⟨n2, s2⟩ := ns2
    rw [List.all_cons, Bool.and_eq_true] at hms
    obtain ⟨hgs2, hgrest⟩ := hms
    simp only [doc_writable, List.all_cons, Bool.and_eq_true] at hw
    obtain ⟨hw2, hwrest⟩ := hw
    obtain ⟨hne, hnb, hmn, hce, hcs⟩ := good_section_parts hgs
    obtain ⟨hne2, hnb2, hmn2, hce2, hcs2⟩ := good_section_parts hgs2
    have hie : name.isEmpty = false := by
      cases name with
      | nil => exact absurd rfl hne
      | cons a as => rfl
    have hsec : (⟨name, sec.m_contents⟩ : INISection) = sec := by
      cases sec with
      | mk n c =>
        simp only at hmn
        rw [hmn]
    have hstep : pure_lines ((n2, s2) :: rest) =
        ('[' :: n2 ++ [']']) ::
          (s2.m_contents.map (fun kv => kv.1 ++ ' ' :: '=' :: ' ' :: kv.2) ++
            pure_lines rest) := by
      show write_section n2 s2 ++ pure_lines rest = _
      unfold write_section
      rw [List.cons_append]
    rw [hstep]
    have hl : ((('[' :: n2) ++ [']']).head? == some '[') = true := rfl
    show (if ((('[' :: n2) ++ [']']).head? == some '[') = true then _ else _) = _
    rw [hl]
    simp only [if_true, hie, Bool.false_eq_true, if_false]
    rw [psv_roundtrip hnb2, hsec, mapInsert_append (sorted_append_lt hsort)]
    rw [parse_kv_block s2.m_contents (pure_lines rest) (acc ++ [(name, sec)]) [] n2
      hce2 hw2]
    have hfold : s2.m_contents.foldl (fun c kv => mapInsert kv.1 kv.2 c) [] =
        s2.m_contents := by
      have := foldl_mapInsert_sorted s2.m_contents [] (by simpa using hcs2)
      simpa using this
    rw [hfold]
    have hsort' : sortedKeys ((acc ++ [(name, sec)]) ++ (n2, s2) :: rest) = true := by
      rw [List.append_assoc, List.singleton_append]
      exact hsort
    rw [ih n2 s2 (acc ++ [(name, sec)]) hgs2 hgrest hwrest hsort']
    rw [List.append_assoc, List.singleton_append]

/-- C10 counterexample: the file `[s]`, `  ;k = 1`, `a = 2` has no invalid
line and loads fine (the key `;k` is legal because the filter sees the
leading space, not the ';'), but after `write` the line `;k = 1` starts
with ';' and is dropped as a comment on re-load, so load-write-load loses
the `;k` entry. -/
theorem c10_counterexample :
    docFind (SimpleINI_load [str "[s]", str "  ;k = 1", str "a = 2"]) (str "s")
      (str ";k") = some (str "1") ∧
    docFind (load_write_load [str "[s]", str "  ;k = 1", str "a = 2"]) (str "s")
      (str ";k") = none := by decide

/-- C10 amended: load-write-load is the identity on the Document's content
for every file that loads successfully PROVIDED no stored key begins with
';', '#' or '[' (keys that do yield write output that re-parses as a
comment or header); under that proviso re-loading the written text yields
exactly the same section/key/value map. -/
theorem c10_value_roundtrip (fileLines : List Str) (m : List (Str × INISection))
    (hload : SimpleINI_load fileLines = .ok m) (hw : doc_writable m = true) :
    SimpleINI_load (write m) = .ok m := by
  have hgood : good_doc m = true :=
    parse_sections_good (read_content fileLines) [] [] [] m (by rfl) (by rfl)
      (by rfl) hload
  simp only [good_doc, Bool.and_eq_true] at hgood
  obtain ⟨hall, hsort⟩ := hgood
  show parse_sections (read_content (write m)) [] [] [] = .ok m
  rw [read_content_write m hall hw]
  cases m with
  | nil => rfl
  | cons ns rest =>
    obtain ⟨name, sec⟩ := ns
    rw [List.all_cons, Bool.and_eq_true] at hall
    obtain ⟨hgs, hgrest⟩ := hall
    simp only [doc_writable, List.all_cons, Bool.and_eq_true] at hw
    obtain ⟨hw1, hwrest⟩ := hw
    obtain ⟨hne, hnb, hmn, hce, hcs⟩ := good_section_parts hgs
    have hstep : pure_lines ((name, sec) :: rest) =
        ('[' :: name ++ [']']) ::
          (sec.m_contents.map (fun kv => kv.1 ++ ' ' :: '=' :: ' ' :: kv.2) ++
            pure_lines rest) := by
      show write_section name sec ++ pure_lines rest = _
      unfold write_section
      rw [List.cons_append]
    rw [hstep]
    have hl : ((('[' :: name) ++ [']']).head? == some '[') = true := rfl
    show (if ((('[' :: name) ++ [']']).head? == some '[') = true then _ else _) = _
    rw [hl]
    simp only [if_true, List.isEmpty_nil]
    rw [psv_roundtrip hnb]
    rw [parse_kv_block sec.m_contents (pure_lines rest) [] [] name hce hw1]
    have hfold : sec.m_contents.foldl (fun c kv => mapInsert kv.1 kv.2 c) [] =
        sec.m_contents := by
      have := foldl_mapInsert_sorted sec.m_contents [] (by simpa using hcs)
      simpa using this
    rw [hfold]
    have hmain := parse_sec_blocks rest name sec [] hgs hgrest hwrest
      (by simpa using hsort)
    simpa using hmain

theorem c10_value_roundtrip_w :
    SimpleINI_load (write [(str "s", ⟨str "s", [(str "a", str "2")]⟩)]) =
      .ok [(str "s", ⟨str "s", [(str "a", str "2")]⟩)] :=
  c10_value_roundtrip [str "[s]", str "a = 2"]
    [(str "s", ⟨str "s", [(str "a", str "2")]⟩)] (by decide) (by decide)
